import Mathlib

/-!
Verification development for the quickhash pipeline (src/src/main.rs).

The program reads stdin in BUF_SIZE-byte blocks, hashes each block with
SipHash-2-4 (128-bit output, zero key) prefixed by the block's sequence
number as a u64, and XOR-folds the per-block digests in sequence order
using a BinaryHeap with a reversed Ord (a min-priority queue on the
sequence number).  This file embeds the data model and the operations of
main.rs shallowly: machine integers are Nat with explicit reduction
mod 2^64 where the Rust code computes in u64, byte streams are List Nat
(each entry a u8 value), channel-based stages become pure functions on
the data that flows through them, and fallible writes return Except.
-/

namespace Quickhash

/-- 2^64, the modulus of u64 arithmetic. -/
def W64 : Nat := 2 ^ 64

/-- u64 wrapping addition. -/
def add64 (a b : Nat) : Nat := (a + b) % W64

/-- u64 left rotation by n bits (for x < 2^64). -/
def rotl64 (x n : Nat) : Nat := ((x <<< n) % W64) ||| (x >>> (64 - n))

/-- The four 64-bit words of SipHash internal state. -/
structure SipState where
  v0 : Nat
  v1 : Nat
  v2 : Nat
  v3 : Nat
deriving DecidableEq

/-- One SipRound of the SipHash ARX permutation. -/
def sipRound (s : SipState) : SipState :=
  let v0 := add64 s.v0 s.v1
  let v1 := rotl64 s.v1 13
  let v1 := v1 ^^^ v0
  let v0 := rotl64 v0 32
  let v2 := add64 s.v2 s.v3
  let v3 := rotl64 s.v3 16
  let v3 := v3 ^^^ v2
  let v0 := add64 v0 v3
  let v3 := rotl64 v3 21
  let v3 := v3 ^^^ v0
  let v2 := add64 v2 v1
  let v1 := rotl64 v1 17
  let v1 := v1 ^^^ v2
  let v2 := rotl64 v2 32
  ⟨v0, v1, v2, v3⟩

/-- Absorb one 64-bit message word: v3 ^= m, two SipRounds (c = 2), v0 ^= m. -/
def sipCompress (s : SipState) (m : Nat) : SipState :=
  let s := { s with v3 := s.v3 ^^^ m }
  let s := sipRound (sipRound s)
  { s with v0 := s.v0 ^^^ m }

/-- SipHash initial state for key (k0, k1), 128-bit variant (v1 ^= 0xee). -/
def sipInit128 (k0 k1 : Nat) : SipState :=
  { v0 := k0 ^^^ 0x736f6d6570736575
    v1 := (k1 ^^^ 0x646f72616e646f6d) ^^^ 0xee
    v2 := k0 ^^^ 0x6c7967656e657261
    v3 := k1 ^^^ 0x7465646279746573 }

/-- Little-endian value of a byte list: byte i contributes b_i * 256^i. -/
def leWord (bytes : List Nat) : Nat :=
  bytes.foldr (fun b acc => b + 256 * acc) 0

/-- Absorb all complete 8-byte words of the data, returning the final state
and the remaining tail of fewer than 8 bytes. -/
def sipBlocks (s : SipState) (data : List Nat) : SipState × List Nat :=
  if h : 8 ≤ data.length then
    sipBlocks (sipCompress s (leWord (data.take 8))) (data.drop 8)
  else
    (s, data)
termination_by data.length
decreasing_by
  simp only [List.length_drop]
  omega

/-- SipHash-2-4 128-bit finalization: absorb the length-tagged final word
(top byte = total length mod 256, low bytes = the tail, little endian),
then v2 ^= 0xee, four rounds, h1 = v0^v1^v2^v3, then v1 ^= 0xdd, four
rounds, h2 = v0^v1^v2^v3.  The u128 result is h1 | (h2 << 64), matching
the conversion of the crate's Hash128 into u128. -/
def sipFinish128 (s : SipState) (len : Nat) (tail : List Nat) : Nat :=
  let b := ((len % 256) <<< 56) ||| leWord tail
  let s := sipCompress s b
  let s := { s with v2 := s.v2 ^^^ 0xee }
  let s := sipRound (sipRound (sipRound (sipRound s)))
  let h1 := s.v0 ^^^ s.v1 ^^^ s.v2 ^^^ s.v3
  let s := { s with v1 := s.v1 ^^^ 0xdd }
  let s := sipRound (sipRound (sipRound (sipRound s)))
  let h2 := s.v0 ^^^ s.v1 ^^^ s.v2 ^^^ s.v3
  h1 + W64 * h2

/-- SipHash-2-4 with 128-bit output of a whole byte string under key (k0, k1). -/
def sipHash128 (k0 k1 : Nat) (data : List Nat) : Nat :=
  let p := sipBlocks (sipInit128 k0 k1) data
  sipFinish128 p.1 data.length p.2

/-- The 8 little-endian bytes of a u64 value (Hasher::write_u64 feeds
x.to_ne_bytes(), little endian on the targets this program runs on). -/
def u64le (x : Nat) : List Nat :=
  [x % 256, x / 2 ^ 8 % 256, x / 2 ^ 16 % 256, x / 2 ^ 24 % 256,
   x / 2 ^ 32 % 256, x / 2 ^ 40 % 256, x / 2 ^ 48 % 256, x / 2 ^ 56 % 256]

/-- Streaming state of siphasher::sip128::SipHasher: the running SipState
after absorbing every complete 8-byte word, the total number of bytes
written (a u64), and the pending tail of fewer than 8 bytes.  The crate
buffers the tail and compresses each completed word; its net effect on
a write is to absorb all complete words of tail ++ bytes and keep the
remainder as the new tail. -/
structure SipHasher where
  state : SipState
  length : Nat
  tail : List Nat
deriving DecidableEq

/-- SipHasher::new(): zero key. -/
def SipHasher.new : SipHasher :=
  { state := sipInit128 0 0, length := 0, tail := [] }

/-- Hasher::write: absorb bytes into the streaming state. -/
def SipHasher.write (h : SipHasher) (bytes : List Nat) : SipHasher :=
  let p := sipBlocks h.state (h.tail ++ bytes)
  { state := p.1, length := (h.length + bytes.length) % W64, tail := p.2 }

/-- Hasher::write_u64: writes the 8 native-endian bytes of the value. -/
def SipHasher.writeU64 (h : SipHasher) (x : Nat) : SipHasher :=
  h.write (u64le x)

/-- Hasher128::finish128, converted into a u128. -/
def SipHasher.finish128 (h : SipHasher) : Nat :=
  sipFinish128 h.state h.length h.tail

/-- HashResult of main.rs: a 128-bit hash and a u64 byte length.
Default derives to hash = 0, len = 0. -/
structure HashResult where
  hash : Nat
  len : Nat
deriving DecidableEq

instance : Inhabited HashResult := ⟨⟨0, 0⟩⟩

/-- HashResult::add: XOR the hashes, add the lengths (u64). -/
def HashResult.add (s other : HashResult) : HashResult :=
  { hash := s.hash ^^^ other.hash, len := (s.len + other.len) % W64 }

/-- HashWriter of main.rs: a hasher plus the count of bytes written
through the Write interface. -/
structure HashWriter where
  hash : SipHasher
  len : Nat
deriving DecidableEq

/-- HashWriter::new. -/
def HashWriter.new (h : SipHasher) : HashWriter :=
  { hash := h, len := 0 }

/-- HashWriter::close: finish the hash and package it with the length. -/
def HashWriter.close (w : HashWriter) : HashResult :=
  { hash := w.hash.finish128, len := w.len }

/-- The std::io error cases reachable from Write::write_all. -/
inductive IOError where
  | writeZero
deriving DecidableEq

/-- HashWriter's Write::write impl: count the bytes (u64 add), feed them to
the hasher, and report the full length as written.  It never errors. -/
def HashWriter.write (w : HashWriter) (bytes : List Nat) :
    HashWriter × Except IOError Nat :=
  ({ w with len := (w.len + bytes.length) % W64, hash := w.hash.write bytes },
   Except.ok bytes.length)

/-- std Write::write_all: repeatedly call write until the buffer is
drained; a successful write of 0 bytes on a nonempty buffer is the
WriteZero error, and any write error propagates. -/
def writeAll (w : HashWriter) (bytes : List Nat) : Except IOError HashWriter :=
  if hb : bytes = [] then
    Except.ok w
  else
    match w.write bytes with
    | (w', Except.ok n) =>
        if hn : n = 0 then Except.error IOError.writeZero
        else writeAll w' (bytes.drop n)
    | (_, Except.error e) => Except.error e
termination_by bytes.length
decreasing_by
  simp only [List.length_drop]
  rcases bytes with _ | ⟨b, bs⟩
  · exact absurd rfl hb
  · simp only [List.length_cons]
    omega

/-- A sequence-numbered block buffer (struct Buf). -/
structure Buf where
  seq : Nat
  data : List Nat
deriving DecidableEq

/-- A per-block digest tagged with its sequence number (struct HashResultIdx). -/
structure HashResultIdx where
  seq : Nat
  res : HashResult
deriving DecidableEq

/-- The Ord impl of HashResultIdx: compare only the sequence numbers, in
reversed order (fn cmp(&self, o) returns o.0.cmp(&self.0)). -/
def HashResultIdx.cmp (a o : HashResultIdx) : Ordering :=
  compare o.seq a.seq

/-- The PartialEq impl of HashResultIdx: equality of sequence numbers only. -/
def HashResultIdx.beq (a o : HashResultIdx) : Bool :=
  o.seq == a.seq

/-- One comparison step in selecting the Ord-maximal element. -/
def peekStep (acc : Option HashResultIdx) (x : HashResultIdx) :
    Option HashResultIdx :=
  match acc with
  | none => some x
  | some m => if HashResultIdx.cmp x m = Ordering.gt then some x else some m

/-- BinaryHeap::peek on a collection of HashResultIdx: some element that is
maximal under the reversed Ord (ties, which need equal sequence numbers,
may resolve to either element, as in the real heap). -/
def heapPeekMax (l : List HashResultIdx) : Option HashResultIdx :=
  l.foldl peekStep none

/-- One worker iteration on one block (the body of the worker loop):
fresh SipHasher, write_u64 of the sequence number directly into the
hasher (bypassing the length counter), write_all of the block bytes
through the HashWriter, then close.  A write_all error would hit the
expect("hash should not fail") panic, modelled as none. -/
def workerProcess (b : Buf) : Option HashResultIdx :=
  let w := HashWriter.new SipHasher.new
  let w := { w with hash := w.hash.writeU64 b.seq }
  match writeAll w b.data with
  | Except.ok w' => some ⟨b.seq, w'.close⟩
  | Except.error _ => none

/-! ## The reducer

The reducer thread keeps a BinaryHeap of HashResultIdx and a counter of
the next expected sequence number.  Because the Ord of HashResultIdx is
reversed, the heap is a min-priority queue on the sequence number; it is
modelled as a list kept sorted by ascending sequence number, whose head
is exactly the element BinaryHeap::peek returns (the Ord-maximal one). -/

/-- BinaryHeap::push into the sorted-list model of the min-queue. -/
def heapPush (x : HashResultIdx) : List HashResultIdx → List HashResultIdx
  | [] => [x]
  | y :: ys => if x.seq ≤ y.seq then x :: y :: ys else y :: heapPush x ys

/-- Reducer state: the pending heap, the next expected sequence number,
the running total, and (for specification purposes) the trace of digests
in the order they were folded into the total. -/
structure RState where
  pending : List HashResultIdx
  next : Nat
  total : HashResult
  trace : List HashResultIdx
deriving DecidableEq

/-- The inner while loop of the reducer: while the heap's minimum has
sequence number equal to next, pop it, fold it, and advance next. -/
def drain : List HashResultIdx → Nat → HashResult → List HashResultIdx → RState
  | [], next, total, trace => ⟨[], next, total, trace⟩
  | d :: rest, next, total, trace =>
      if d.seq = next then drain rest (next + 1) (total.add d.res) (trace ++ [d])
      else ⟨d :: rest, next, total, trace⟩

/-- One iteration of the reducer's receive loop: push the arrival, then
drain the contiguous run. -/
def reduceStep (st : RState) (d : HashResultIdx) : RState :=
  drain (heapPush d st.pending) st.next st.total st.trace

/-- The whole reducer thread: start from the empty heap, next = 0 and the
default total, process every arrival in order, and (when the stream
closes) the final total is sent exactly once on the finish channel. -/
def reducerRun (arrivals : List HashResultIdx) : RState :=
  arrivals.foldl reduceStep ⟨[], 0, ⟨0, 0⟩, []⟩

/-- Folding a list of per-block digests into a HashResult in list order. -/
def combineAll (l : List HashResultIdx) : HashResult :=
  l.foldl (fun t d => t.add d.res) ⟨0, 0⟩

/-! ## The producer and the whole pipeline -/

/-- BUF_SIZE of main.rs: 512 KiB. -/
def BUF_SIZE : Nat := 1024 * 512

/-- Split the input stream into blocks of at most bsz bytes, as the
producer loop does with read_to_end limited by take(bsz): each
iteration consumes up to bsz bytes, and a read of zero bytes stops it. -/
def chunks : Nat → List Nat → List (List Nat)
  | _, [] => []
  | 0, _ :: _ => []
  | bsz + 1, x :: xs =>
      (x :: xs).take (bsz + 1) :: chunks (bsz + 1) ((x :: xs).drop (bsz + 1))
termination_by _ l => l.length
decreasing_by
  simp only [List.length_drop, List.length_cons]
  omega

/-- The per-block digests the worker pool emits for a list of published
blocks, which get sequence numbers 0, 1, 2, ... in publication order
(in block order here; workers may deliver any permutation of it). -/
def digestsOf (blocks : List (List Nat)) : List HashResultIdx :=
  (blocks.enum.map (fun p => Buf.mk p.1 p.2)).filterMap workerProcess

/-- The multiset of per-block digests the worker pool emits for an input. -/
def pipelineDigests (bsz : Nat) (input : List Nat) : List HashResultIdx :=
  digestsOf (chunks bsz input)

/-- The combined result of the whole pipeline on an input. -/
def pipelineResult (bsz : Nat) (input : List Nat) : HashResult :=
  (reducerRun (pipelineDigests bsz input)).total

/-! ## The program: producer loop outcomes, output format, exit code -/

/-- The outcome of one producer read (take(BUF_SIZE).read_to_end):
either some bytes (empty = end of input) or an I/O error. -/
inductive ReadOutcome where
  | ok (bytes : List Nat)
  | err
deriving DecidableEq

/-- The producer loop of main: on Ok(0) stop cleanly; on Ok(n) publish the
block and continue; on Err log, set exitcode 1, and stop publishing.
Returns the published blocks in order and the exit code. -/
def producerRun : List ReadOutcome → List (List Nat) × Nat
  | [] => ([], 0)
  | ReadOutcome.ok [] :: _ => ([], 0)
  | ReadOutcome.ok (b :: bs) :: rest =>
      let p := producerRun rest
      ((b :: bs) :: p.1, p.2)
  | ReadOutcome.err :: _ => ([], 1)

/-- The bytes a read outcome contributed to the stream. -/
def ReadOutcome.bytes : ReadOutcome → List Nat
  | ok bs => bs
  | err => []

/-- Nat.digitChar restricted to hex: lowercase, as Rust LowerHex. -/
def hexChars (n : Nat) : List Char :=
  if h : n < 16 then [Nat.digitChar n]
  else hexChars (n / 16) ++ [Nat.digitChar (n % 16)]
termination_by n
decreasing_by
  exact Nat.div_lt_self (by omega) (by omega)

/-- Rust's LowerHex formatting of an unsigned integer with the plain
format spec x7b:x\x7d: minimal-length lowercase hex, no leading zeros,
and the single digit 0 for zero. -/
def hexStr (n : Nat) : String :=
  String.mk (hexChars n)

/-- The two printed lines and the exit status of a run. -/
structure ProgramOutput where
  line1 : String
  line2 : String
  exitcode : Nat
deriving DecidableEq

/-- The two println calls of main applied to a combined result: the
SIP128 line (x7bx7d for BUF_SIZE, x7b:xx7d for the hash) and the LEN
line (x7bx7d for the length), plus the exit code. -/
def formatOutput (r : HashResult) (code : Nat) : ProgramOutput :=
  { line1 := "SIP128/" ++ Nat.repr BUF_SIZE ++ " = " ++ hexStr r.hash
    line2 := "LEN = " ++ Nat.repr r.len
    exitcode := code }

/-- The output glue of main: hash and fold the published blocks, then
format the result, for a given producer exit code. -/
def outputFor (blocks : List (List Nat)) (code : Nat) : ProgramOutput :=
  formatOutput (reducerRun (digestsOf blocks)).total code

/-- A whole program run over a sequence of read outcomes. -/
def programRun (outcomes : List ReadOutcome) : ProgramOutput :=
  outputFor (producerRun outcomes).1 (producerRun outcomes).2

/-! ## Lemmas: the streaming hasher agrees with the one-shot hash -/

theorem sipBlocks_append (a b : List Nat) (s : SipState) :
    sipBlocks s (a ++ b) =
      sipBlocks (sipBlocks s a).1 ((sipBlocks s a).2 ++ b) := by
  by_cases h8 : 8 ≤ a.length
  · have hab : 8 ≤ (a ++ b).length := by
      rw [List.length_append]; omega
    have ha : sipBlocks s a =
        sipBlocks (sipCompress s (leWord (a.take 8))) (a.drop 8) := by
      rw [sipBlocks, dif_pos h8]
    rw [sipBlocks, dif_pos hab, List.take_append_of_le_length h8,
      List.drop_append_of_le_length h8, ha]
    exact sipBlocks_append (a.drop 8) b _
  · have ha : sipBlocks s a = (s, a) := by
      rw [sipBlocks, dif_neg h8]
    rw [ha]
termination_by a.length
decreasing_by
  simp only [List.length_drop]
  omega

theorem SipHasher.write_new (A : List Nat) :
    SipHasher.new.write A =
      ⟨(sipBlocks (sipInit128 0 0) A).1, A.length % W64,
        (sipBlocks (sipInit128 0 0) A).2⟩ := by
  simp [SipHasher.write, SipHasher.new]

theorem SipHasher.write_write (A B : List Nat) :
    (SipHasher.new.write A).write B = SipHasher.new.write (A ++ B) := by
  simp only [SipHasher.write, SipHasher.new, List.nil_append]
  rw [sipBlocks_append A B]
  simp [List.length_append, Nat.mod_add_mod, Nat.add_assoc]

theorem sipFinish128_mod (s : SipState) (l : Nat) (t : List Nat) :
    sipFinish128 s (l % W64) t = sipFinish128 s l t := by
  unfold sipFinish128
  rw [Nat.mod_mod_of_dvd l (by norm_num [W64])]

theorem SipHasher.finish128_write (A : List Nat) :
    (SipHasher.new.write A).finish128 = sipHash128 0 0 A := by
  rw [SipHasher.write_new]
  show sipFinish128 _ (A.length % W64) _ = _
  rw [sipFinish128_mod]
  rfl

/-! ## Lemmas: write and write_all never fail -/

theorem writeAll_nil (w : HashWriter) : writeAll w [] = Except.ok w := by
  rw [writeAll]
  simp

theorem writeAll_cons (w : HashWriter) (bytes : List Nat) (h : bytes ≠ []) :
    writeAll w bytes =
      Except.ok ⟨w.hash.write bytes, (w.len + bytes.length) % W64⟩ := by
  rw [writeAll]
  simp only [h, dif_neg, not_false_iff]
  have hlen : bytes.length ≠ 0 := by
    simpa [List.length_eq_zero] using h
  simp only [HashWriter.write, hlen, dif_neg, not_false_iff, List.drop_length,
    writeAll_nil]

/-- The per-block digest the worker emits, in closed form. -/
theorem workerProcess_eq (b : Buf) :
    workerProcess b =
      some ⟨b.seq, ⟨sipHash128 0 0 (u64le b.seq ++ b.data),
        b.data.length % W64⟩⟩ := by
  obtain ⟨s, data⟩ := b
  rcases data with _ | ⟨x, xs⟩
  · simp only [workerProcess, SipHasher.writeU64, writeAll_nil,
      HashWriter.close, HashWriter.new, SipHasher.finish128_write,
      List.append_nil, List.length_nil, Nat.zero_mod]
  · simp only [workerProcess, SipHasher.writeU64, HashWriter.new,
      writeAll_cons _ _ (List.cons_ne_nil x xs), HashWriter.close,
      SipHasher.write_write, SipHasher.finish128_write, Nat.zero_add]

/-! ## Lemmas: the reducer folds a complete run in sequence order -/

/-- The sequence numbers of a digest list. -/
def seqsOf (l : List HashResultIdx) : List Nat := l.map HashResultIdx.seq

theorem seqsOf_append (a b : List HashResultIdx) :
    seqsOf (a ++ b) = seqsOf a ++ seqsOf b := List.map_append _ a b

theorem heapPush_perm (x : HashResultIdx) (l : List HashResultIdx) :
    (heapPush x l).Perm (x :: l) := by
  induction l with
  | nil => simp [heapPush]
  | cons y ys ih =>
    rw [heapPush]
    by_cases h : x.seq ≤ y.seq
    · simp [h]
    · simp only [h, if_false]
      exact (ih.cons y).trans (List.Perm.swap x y ys)

theorem heapPush_pairwise (x : HashResultIdx) (l : List HashResultIdx)
    (hs : l.Pairwise (fun a b => a.seq < b.seq))
    (hx : ∀ y ∈ l, x.seq ≠ y.seq) :
    (heapPush x l).Pairwise (fun a b => a.seq < b.seq) := by
  induction l with
  | nil => simp [heapPush]
  | cons y ys ih =>
    rw [heapPush]
    rcases List.pairwise_cons.mp hs with ⟨hy, hys⟩
    by_cases h : x.seq ≤ y.seq
    · rw [if_pos h]
      have hxy : x.seq < y.seq :=
        lt_of_le_of_ne h (hx y (List.mem_cons_self y ys))
      refine List.pairwise_cons.mpr ⟨?_, hs⟩
      intro z hz
      rcases List.mem_cons.mp hz with rfl | hz
      · exact hxy
      · exact hxy.trans (hy z hz)
    · rw [if_neg h]
      have hyx : y.seq < x.seq := by omega
      refine List.pairwise_cons.mpr
        ⟨?_, ih hys (fun z hz => hx z (List.mem_cons_of_mem y hz))⟩
      intro z hz
      rcases List.mem_cons.mp ((heapPush_perm x ys).mem_iff.mp hz) with rfl | hz
      · exact hyx
      · exact hy z hz

theorem combineAll_append (l : List HashResultIdx) (d : HashResultIdx) :
    combineAll (l ++ [d]) = (combineAll l).add d.res := by
  simp [combineAll, List.foldl_append]

/-- The reducer-state invariant: the heap is strictly sorted by sequence
number, every pending digest is strictly beyond the next expected number,
the trace so far is exactly the digests of sequence numbers 0..next-1 in
order, and the running total is the fold of the trace. -/
def RInv (st : RState) : Prop :=
  st.pending.Pairwise (fun a b => a.seq < b.seq) ∧
  (∀ d ∈ st.pending, st.next < d.seq) ∧
  seqsOf st.trace = List.range st.next ∧
  st.total = combineAll st.trace

theorem drain_inv (p : List HashResultIdx) (next : Nat) (total : HashResult)
    (trace : List HashResultIdx)
    (hp : p.Pairwise (fun a b => a.seq < b.seq))
    (hge : ∀ d ∈ p, next ≤ d.seq)
    (ht : seqsOf trace = List.range next)
    (htot : total = combineAll trace) :
    RInv (drain p next total trace) ∧
      ((drain p next total trace).trace ++
        (drain p next total trace).pending).Perm (trace ++ p) := by
  induction p generalizing next total trace with
  | nil =>
    simp only [drain]
    exact ⟨⟨List.Pairwise.nil, by simp, ht, htot⟩, by simp⟩
  | cons d rest ih =>
    rcases List.pairwise_cons.mp hp with ⟨hd, hrest⟩
    by_cases h : d.seq = next
    · have hstep : drain (d :: rest) next total trace
          = drain rest (next + 1) (total.add d.res) (trace ++ [d]) := by
        simp only [drain, if_pos h]
      rw [hstep]
      have hge' : ∀ x ∈ rest, next + 1 ≤ x.seq := by
        intro x hx
        have := hd x hx
        omega
      have ht' : seqsOf (trace ++ [d]) = List.range (next + 1) := by
        rw [seqsOf_append, ht, List.range_succ]
        simp [seqsOf, h]
      have htot' : total.add d.res = combineAll (trace ++ [d]) := by
        rw [combineAll_append, htot]
      obtain ⟨inv, perm⟩ := ih (next + 1) (total.add d.res)
        (trace ++ [d]) hrest hge' ht' htot'
      have heq : (trace ++ [d]) ++ rest = trace ++ d :: rest := by simp
      rw [heq] at perm
      exact ⟨inv, perm⟩
    · have hstep : drain (d :: rest) next total trace
          = ⟨d :: rest, next, total, trace⟩ := by
        simp only [drain, if_neg h]
      rw [hstep]
      refine ⟨⟨hp, ?_, ht, htot⟩, List.Perm.refl _⟩
      intro x hx
      have hx' : x ∈ d :: rest := hx
      show next < x.seq
      rcases List.mem_cons.mp hx' with rfl | hxx
      · have := hge x (List.mem_cons_self x rest)
        omega
      · have h1 := hd x hxx
        have h2 := hge d (List.mem_cons_self d rest)
        omega

theorem reduceStep_inv (st : RState) (d : HashResultIdx)
    (hinv : RInv st)
    (hp : d.seq ∉ seqsOf st.pending) (htr : d.seq ∉ seqsOf st.trace) :
    RInv (reduceStep st d) ∧
      ((reduceStep st d).trace ++ (reduceStep st d).pending).Perm
        (st.trace ++ (d :: st.pending)) := by
  obtain ⟨hsort, hbeyond, htrace, htot⟩ := hinv
  have hnext : st.next ≤ d.seq := by
    by_contra hlt
    exact htr (by rw [htrace]; exact List.mem_range.mpr (by omega))
  have hpush_sorted := heapPush_pairwise d st.pending hsort
    (fun y hy hcon => hp (hcon ▸ List.mem_map_of_mem HashResultIdx.seq hy))
  have hpush_ge : ∀ x ∈ heapPush d st.pending, st.next ≤ x.seq := by
    intro x hx
    rcases List.mem_cons.mp ((heapPush_perm d st.pending).mem_iff.mp hx)
      with rfl | hx
    · exact hnext
    · exact le_of_lt (hbeyond x hx)
  obtain ⟨inv, perm⟩ := drain_inv (heapPush d st.pending) st.next st.total
    st.trace hpush_sorted hpush_ge htrace htot
  exact ⟨inv, perm.trans ((heapPush_perm d st.pending).append_left st.trace)⟩

theorem reducerFold_inv (l : List HashResultIdx) :
    ∀ (st : RState), RInv st →
      (seqsOf (st.trace ++ st.pending ++ l)).Nodup →
      RInv (l.foldl reduceStep st) ∧
        ((l.foldl reduceStep st).trace ++
          (l.foldl reduceStep st).pending).Perm
          (st.trace ++ st.pending ++ l) := by
  induction l with
  | nil =>
    intro st hinv _
    exact ⟨hinv, by simp⟩
  | cons d rest ih =>
    intro st hinv hnd
    have hshuffle :
        (st.trace ++ st.pending ++ (d :: rest)).Perm
          (st.trace ++ (d :: st.pending) ++ rest) := by
      have hmid : (st.pending ++ d :: rest).Perm (d :: (st.pending ++ rest)) :=
        List.perm_middle
      have h2 : st.trace ++ st.pending ++ (d :: rest)
          = st.trace ++ (st.pending ++ d :: rest) := by
        simp [List.append_assoc]
      have h3 : st.trace ++ (d :: st.pending) ++ rest
          = st.trace ++ (d :: (st.pending ++ rest)) := by
        simp [List.append_assoc]
      rw [h2, h3]
      exact hmid.append_left st.trace
    have hnd1 : (seqsOf (st.trace ++ (d :: st.pending) ++ rest)).Nodup :=
      ((hshuffle.map HashResultIdx.seq).nodup_iff).mp hnd
    have hfresh : d.seq ∉ seqsOf st.pending ∧ d.seq ∉ seqsOf st.trace := by
      rw [seqsOf_append, seqsOf_append] at hnd1
      rcases List.nodup_append.mp hnd1 with ⟨hab, _, hdisj⟩
      rcases List.nodup_append.mp hab with ⟨_, hdp, hdisj2⟩
      have hcons : seqsOf (d :: st.pending) = d.seq :: seqsOf st.pending := rfl
      rw [hcons] at hdp hdisj2
      constructor
      · exact (List.nodup_cons.mp hdp).1
      · intro hmem
        exact hdisj2 hmem (List.mem_cons_self _ _)
    obtain ⟨inv1, perm1⟩ := reduceStep_inv st d hinv hfresh.1 hfresh.2
    have hnd2 :
        (seqsOf ((reduceStep st d).trace ++ (reduceStep st d).pending
          ++ rest)).Nodup := by
      have hpr : ((reduceStep st d).trace ++ (reduceStep st d).pending
          ++ rest).Perm (st.trace ++ (d :: st.pending) ++ rest) :=
        perm1.append_right rest
      exact ((hpr.map HashResultIdx.seq).nodup_iff).mpr hnd1
    obtain ⟨inv2, perm2⟩ := ih (reduceStep st d) inv1 hnd2
    have heq : (d :: rest).foldl reduceStep st
        = rest.foldl reduceStep (reduceStep st d) := by
      simp [List.foldl_cons]
    rw [heq]
    exact ⟨inv2, (perm2.trans (perm1.append_right rest)).trans hshuffle.symm⟩

/-- On any arrival list whose sequence numbers are exactly 0..n-1 in some
order, the reducer drains its heap completely, folds every digest exactly
once, its fold trace is ordered 0, 1, ..., n-1, and the emitted total is
the fold of the trace. -/
theorem reducerRun_complete (arrivals : List HashResultIdx) (n : Nat)
    (h : (seqsOf arrivals).Perm (List.range n)) :
    (reducerRun arrivals).pending = [] ∧
    (reducerRun arrivals).trace.Perm arrivals ∧
    seqsOf (reducerRun arrivals).trace = List.range n ∧
    (reducerRun arrivals).next = n ∧
    (reducerRun arrivals).total = combineAll (reducerRun arrivals).trace := by
  have hinv0 : RInv ⟨[], 0, ⟨0, 0⟩, []⟩ :=
    ⟨List.Pairwise.nil, by simp, by simp [seqsOf], rfl⟩
  have hnd : (seqsOf (([] : List HashResultIdx) ++ [] ++ arrivals)).Nodup := by
    simpa using h.nodup_iff.mpr (List.nodup_range n)
  obtain ⟨⟨hsort, hbeyond, htrace, htot⟩, hperm⟩ :=
    reducerFold_inv arrivals ⟨[], 0, ⟨0, 0⟩, []⟩ hinv0 hnd
  simp only [List.nil_append] at hperm
  simp only [reducerRun]
  set st := List.foldl reduceStep
    (⟨[], 0, ⟨0, 0⟩, []⟩ : RState) arrivals with hst
  have hperm' : (st.trace ++ st.pending).Perm arrivals := hperm
  have hseqperm : (seqsOf (st.trace ++ st.pending)).Perm (List.range n) :=
    (hperm'.map HashResultIdx.seq).trans h
  have hpend : st.pending = [] := by
    rcases hpe : st.pending with _ | ⟨p, ps⟩
    · rfl
    · exfalso
      have hpmem : p ∈ st.pending := by rw [hpe]; exact List.mem_cons_self p ps
      have hpn : p.seq < n := by
        have : p.seq ∈ seqsOf (st.trace ++ st.pending) := by
          rw [seqsOf_append]
          exact List.mem_append_right _
            (List.mem_map_of_mem HashResultIdx.seq hpmem)
        exact List.mem_range.mp (hseqperm.mem_iff.mp this)
      have hnextn : st.next < n := lt_trans (hbeyond p hpmem) hpn
      have : st.next ∈ seqsOf (st.trace ++ st.pending) :=
        hseqperm.mem_iff.mpr (List.mem_range.mpr hnextn)
      rw [seqsOf_append] at this
      rcases List.mem_append.mp this with hmem | hmem
      · rw [htrace] at hmem
        exact absurd (List.mem_range.mp hmem) (lt_irrefl st.next)
      · rcases List.mem_map.mp hmem with ⟨q, hq, hqe⟩
        have := hbeyond q hq
        omega
  have htrperm : st.trace.Perm arrivals := by
    have := hperm'
    rw [hpend, List.append_nil] at this
    exact this
  have hnext : st.next = n := by
    have h1 : (seqsOf st.trace).Perm (List.range n) :=
      (htrperm.map HashResultIdx.seq).trans h
    have := h1.length_eq
    rw [htrace] at this
    simpa using this
  exact ⟨hpend, htrperm, by rw [htrace, hnext], hnext, htot⟩

/-! ## Lemmas: the fold is order-independent -/

theorem HashResult.add_add_comm (t a b : HashResult) :
    (t.add a).add b = (t.add b).add a := by
  simp only [HashResult.add, HashResult.mk.injEq]
  constructor
  · rw [Nat.xor_assoc, Nat.xor_assoc, Nat.xor_comm a.hash b.hash]
  · rw [Nat.mod_add_mod, Nat.mod_add_mod, Nat.add_right_comm]

theorem foldl_add_perm {l₁ l₂ : List HashResultIdx} (p : l₁.Perm l₂) :
    ∀ t : HashResult,
      l₁.foldl (fun t d => t.add d.res) t = l₂.foldl (fun t d => t.add d.res) t := by
  induction p with
  | nil => intro t; rfl
  | cons x _ ih => intro t; simp only [List.foldl_cons]; exact ih _
  | swap x y l =>
    intro t
    simp only [List.foldl_cons]
    rw [HashResult.add_add_comm]
  | trans _ _ ih1 ih2 => intro t; rw [ih1, ih2]

theorem combineAll_perm {l₁ l₂ : List HashResultIdx} (p : l₁.Perm l₂) :
    combineAll l₁ = combineAll l₂ :=
  foldl_add_perm p _

theorem combineAll_len (l : List HashResultIdx) :
    (combineAll l).len = (l.map (fun d => d.res.len)).sum % W64 := by
  suffices h : ∀ (t : HashResult), t.len < W64 →
      (l.foldl (fun t d => t.add d.res) t).len =
        (t.len + (l.map (fun d => d.res.len)).sum) % W64 by
    have := h ⟨0, 0⟩ (by norm_num [W64])
    simpa [combineAll] using this
  induction l with
  | nil =>
    intro t ht
    simp [Nat.mod_eq_of_lt ht]
  | cons d rest ih =>
    intro t ht
    simp only [List.foldl_cons, List.map_cons, List.sum_cons]
    rw [ih (t.add d.res) (Nat.mod_lt _ (by norm_num [W64]))]
    simp only [HashResult.add, Nat.mod_add_mod, Nat.add_assoc]

/-! ## Lemmas: blocks, digests and the producer -/

theorem chunks_join (bsz : Nat) (hb : 0 < bsz) (l : List Nat) :
    (chunks bsz l).flatten = l := by
  rcases bsz with _ | b
  · omega
  rcases l with _ | ⟨x, xs⟩
  · simp [chunks]
  · rw [chunks]
    simp only [List.flatten_cons]
    rw [chunks_join (b + 1) (Nat.succ_pos b) ((x :: xs).drop (b + 1))]
    exact List.take_append_drop _ _
termination_by l.length
decreasing_by
  simp only [List.length_drop, List.length_cons]
  omega

theorem filterMap_total {α β : Type} (h : α → Option β) (g : α → β)
    (hh : ∀ x, h x = some (g x)) (l : List α) : l.filterMap h = l.map g := by
  induction l with
  | nil => rfl
  | cons a as ih => simp [List.filterMap_cons, hh a, ih]

theorem digestsOf_eq (blocks : List (List Nat)) :
    digestsOf blocks = blocks.enum.map (fun p : Nat × List Nat =>
      (⟨p.1, ⟨sipHash128 0 0 (u64le p.1 ++ p.2), p.2.length % W64⟩⟩ :
        HashResultIdx)) := by
  unfold digestsOf
  rw [List.filterMap_map]
  exact filterMap_total _ _
    (fun p : Nat × List Nat => workerProcess_eq ⟨p.1, p.2⟩) _

theorem digestsOf_seqs (blocks : List (List Nat)) :
    seqsOf (digestsOf blocks) = List.range blocks.length := by
  rw [digestsOf_eq]
  unfold seqsOf
  rw [List.map_map]
  have hc : (HashResultIdx.seq ∘ fun p : Nat × List Nat =>
      (⟨p.1, ⟨sipHash128 0 0 (u64le p.1 ++ p.2), p.2.length % W64⟩⟩ :
        HashResultIdx)) = Prod.fst := rfl
  rw [hc, List.enum_map_fst]

theorem digestsOf_lens (blocks : List (List Nat)) :
    (digestsOf blocks).map (fun d => d.res.len)
      = blocks.map (fun c => c.length % W64) := by
  rw [digestsOf_eq, List.map_map]
  have hc : ((fun d : HashResultIdx => d.res.len) ∘ fun p : Nat × List Nat =>
      (⟨p.1, ⟨sipHash128 0 0 (u64le p.1 ++ p.2), p.2.length % W64⟩⟩ :
        HashResultIdx)) = (fun c : List Nat => c.length % W64) ∘ Prod.snd :=
    rfl
  rw [hc, ← List.map_map, List.enum_map_snd]

theorem producerRun_err (pre rest : List ReadOutcome)
    (h : ∀ o ∈ pre, ∃ b bs, o = ReadOutcome.ok (b :: bs)) :
    producerRun (pre ++ ReadOutcome.err :: rest)
      = (pre.map ReadOutcome.bytes, 1) := by
  induction pre with
  | nil => rfl
  | cons o os ih =>
    obtain ⟨b, bs, rfl⟩ := h o (List.mem_cons_self o os)
    have hrec := ih (fun x hx => h x (List.mem_cons_of_mem _ hx))
    simp [producerRun, ReadOutcome.bytes, hrec]

theorem producerRun_eof (pre rest : List ReadOutcome)
    (h : ∀ o ∈ pre, ∃ b bs, o = ReadOutcome.ok (b :: bs)) :
    producerRun (pre ++ ReadOutcome.ok [] :: rest)
      = (pre.map ReadOutcome.bytes, 0) := by
  induction pre with
  | nil => rfl
  | cons o os ih =>
    obtain ⟨b, bs, rfl⟩ := h o (List.mem_cons_self o os)
    have hrec := ih (fun x hx => h x (List.mem_cons_of_mem _ hx))
    simp [producerRun, ReadOutcome.bytes, hrec]

/-! ## Lemmas: hex formatting -/

theorem hexChars_ne_nil (n : Nat) : hexChars n ≠ [] := by
  rw [hexChars]
  by_cases h : n < 16
  · rw [dif_pos h]
    simp
  · rw [dif_neg h]
    simp

theorem hexChars_length_le (k n : Nat) (hk : 0 < k) (hn : n < 16 ^ k) :
    (hexChars n).length ≤ k := by
  rw [hexChars]
  by_cases h : n < 16
  · rw [dif_pos h]
    simpa using hk
  · rw [dif_neg h]
    have hk2 : 2 ≤ k := by
      by_contra hcon
      have hk1 : k = 1 := by omega
      rw [hk1, pow_one] at hn
      omega
    have h16 : 16 ^ k = 16 ^ (k - 1) * 16 := by
      conv_lhs => rw [show k = (k - 1) + 1 by omega]
      rw [pow_succ]
    have hdiv : n / 16 < 16 ^ (k - 1) := by
      rw [Nat.div_lt_iff_lt_mul (by norm_num)]
      rw [h16] at hn
      exact hn
    have ih := hexChars_length_le (k - 1) (n / 16) (by omega) hdiv
    simp only [List.length_append, List.length_cons, List.length_nil]
    omega
termination_by n
decreasing_by
  exact Nat.div_lt_self (by omega) (by norm_num)

theorem hexChars_head_ne_zero (n : Nat) (hn : n ≠ 0) :
    (hexChars n).head? ≠ some ('0' : Char) := by
  rw [hexChars]
  by_cases h : n < 16
  · rw [dif_pos h]
    have hd : ∀ m, m < 16 → m ≠ 0 → Nat.digitChar m ≠ '0' := by decide
    simpa using hd n h hn
  · rw [dif_neg h]
    have hne := hexChars_ne_nil (n / 16)
    have ih := hexChars_head_ne_zero (n / 16) (by omega)
    rcases hh : hexChars (n / 16) with _ | ⟨c, cs⟩
    · exact absurd hh hne
    · rw [hh] at ih
      simpa using ih
termination_by n
decreasing_by
  exact Nat.div_lt_self (by omega) (by norm_num)

theorem hexChars_mem (n : Nat) :
    ∀ c ∈ hexChars n, c.isDigit = true ∨ ('a' ≤ c ∧ c ≤ 'f') := by
  have hd : ∀ m, m < 16 → (Nat.digitChar m).isDigit = true ∨
      ('a' ≤ Nat.digitChar m ∧ Nat.digitChar m ≤ 'f') := by decide
  rw [hexChars]
  by_cases h : n < 16
  · rw [dif_pos h]
    intro c hc
    rw [List.mem_singleton] at hc
    exact hc ▸ hd n h
  · rw [dif_neg h]
    intro c hc
    rcases List.mem_append.mp hc with hc | hc
    · exact hexChars_mem (n / 16) c hc
    · rw [List.mem_singleton] at hc
      exact hc ▸ hd (n % 16) (Nat.mod_lt n (by norm_num))
termination_by n
decreasing_by
  exact Nat.div_lt_self (by omega) (by norm_num)

theorem hexStr_zero : hexStr 0 = "0" := by
  rw [hexStr, hexChars]
  rfl

theorem programRun_nil :
    programRun [] = ⟨"SIP128/524288 = 0", "LEN = 0", 0⟩ := by
  show outputFor [] 0 = _
  rw [outputFor]
  have hd : digestsOf [] = [] := rfl
  rw [hd]
  have ht : (reducerRun []).total = ⟨0, 0⟩ := rfl
  rw [ht, formatOutput]
  have h0 : hexStr (HashResult.mk 0 0).hash = "0" := hexStr_zero
  rw [h0]
  decide

theorem chunks_nil (bsz : Nat) : chunks bsz [] = [] := by
  rcases bsz with _ | b
  · simp [chunks]
  · simp [chunks]

theorem peekStep_some (a y : HashResultIdx) :
    peekStep (some a) y =
      if HashResultIdx.cmp y a = Ordering.gt then some y else some a := rfl

theorem heapPeekMax_go (l : List HashResultIdx) :
    ∀ a : HashResultIdx,
      ∃ m, l.foldl peekStep (some a) = some m ∧ (m = a ∨ m ∈ l) ∧
        m.seq ≤ a.seq ∧ ∀ x ∈ l, m.seq ≤ x.seq := by
  induction l with
  | nil =>
    intro a
    exact ⟨a, rfl, Or.inl rfl, le_refl _, by simp⟩
  | cons y ys ih =>
    intro a
    by_cases hc : HashResultIdx.cmp y a = Ordering.gt
    · have hlt : y.seq < a.seq := by
        have h1 : compare a.seq y.seq = Ordering.gt := hc
        exact Nat.compare_eq_gt.mp h1
      obtain ⟨m, hm, hmem, hle, hall⟩ := ih y
      have hstep : peekStep (some a) y = some y := by
        rw [peekStep_some, if_pos hc]
      refine ⟨m, ?_, ?_, ?_, ?_⟩
      · rw [List.foldl_cons, hstep]
        exact hm
      · rcases hmem with rfl | hmm
        · exact Or.inr (List.mem_cons_self _ _)
        · exact Or.inr (List.mem_cons_of_mem _ hmm)
      · exact le_of_lt (lt_of_le_of_lt hle hlt)
      · intro x hx
        rcases List.mem_cons.mp hx with rfl | hxx
        · exact hle
        · exact hall x hxx
    · have hge : a.seq ≤ y.seq := by
        have h1 : ¬ compare a.seq y.seq = Ordering.gt := hc
        by_contra hcon
        exact h1 (Nat.compare_eq_gt.mpr (by omega))
      obtain ⟨m, hm, hmem, hle, hall⟩ := ih a
      have hstep : peekStep (some a) y = some a := by
        rw [peekStep_some, if_neg hc]
      refine ⟨m, ?_, ?_, hle, ?_⟩
      · rw [List.foldl_cons, hstep]
        exact hm
      · rcases hmem with rfl | hmm
        · exact Or.inl rfl
        · exact Or.inr (List.mem_cons_of_mem _ hmm)
      · intro x hx
        rcases List.mem_cons.mp hx with rfl | hxx
        · exact le_trans hle hge
        · exact hall x hxx

/-- C7: empty input: the producer stops on the first zero-byte read (or an
already-exhausted stream) without publishing any block, and the program
reports the fixed empty combined value (hash 0 from the fold over zero
PartialDigests, the Default of HashResult) and length 0, with exit 0. -/
theorem claim7_empty_input :
    producerRun [] = ([], 0) ∧
    (∀ rest, producerRun (ReadOutcome.ok [] :: rest) = ([], 0)) ∧
    programRun [] = ⟨"SIP128/524288 = 0", "LEN = 0", 0⟩ ∧
    (∀ rest, programRun (ReadOutcome.ok [] :: rest)
      = ⟨"SIP128/524288 = 0", "LEN = 0", 0⟩) ∧
    (reducerRun []).total = ⟨0, 0⟩ ∧
    (∀ bsz, pipelineResult bsz [] = ⟨0, 0⟩) := by
  refine ⟨rfl, fun rest => rfl, programRun_nil, ?_, rfl, ?_⟩
  · intro rest
    have h : programRun (ReadOutcome.ok [] :: rest) = programRun [] := rfl
    rw [h]
    exact programRun_nil
  · intro bsz
    rw [pipelineResult, pipelineDigests, chunks_nil]
    rfl

/-- C8: the claim says that on a stream that closes while a sequence
number below the highest seen is still missing, the reducer asserts and
fails loudly.  The code does not: when the result channel closes, the
reducer's for loop simply ends and it sends the running total as the
final result unconditionally, dropping whatever is still in the heap.
Witnessed here on the arrival stream that carries only sequence number 1:
the run returns normally, emits the empty fold (hash 0, length 0), and
leaves digest 1 pending and unfolded. -/
theorem claim8_gap_emits_silently :
    (reducerRun [⟨1, ⟨5, 3⟩⟩]).total = ⟨0, 0⟩ ∧
    (reducerRun [⟨1, ⟨5, 3⟩⟩]).pending = [⟨1, ⟨5, 3⟩⟩] ∧
    (reducerRun [⟨1, ⟨5, 3⟩⟩]).trace = [] := by
  decide

/-- C9: hashing can never fail: HashWriter's write unconditionally
returns Ok with the full byte count, hence write_all always returns Ok,
and the worker's expect("hash should not fail") branch is unreachable
(workerProcess never returns none). -/
theorem claim9_hashing_cannot_fail (w : HashWriter) (bytes : List Nat)
    (b : Buf) :
    w.write bytes
      = ({ hash := w.hash.write bytes, len := (w.len + bytes.length) % W64 },
          Except.ok bytes.length) ∧
    (∃ w', writeAll w bytes = Except.ok w') ∧
    (workerProcess b).isSome = true := by
  refine ⟨rfl, ?_, ?_⟩
  · rcases hb : bytes with _ | ⟨x, xs⟩
    · exact ⟨w, writeAll_nil w⟩
    · exact ⟨_, writeAll_cons w (x :: xs) (List.cons_ne_nil x xs)⟩
  · rw [workerProcess_eq]
    rfl

/-- C10: the equality and ordering of HashResultIdx depend only on the
sequence number, are reversed (cmp a b compares b's seq against a's), and
ignore the hash payload; consequently a max-selection under this Ord
(BinaryHeap peek/pop) always yields an element of the heap with the
smallest sequence number. -/
theorem claim10_reversed_ord_minheap (l : List HashResultIdx)
    (m : HashResultIdx) (hpeek : heapPeekMax l = some m) :
    (∀ x ∈ l, m.seq ≤ x.seq) ∧ m ∈ l ∧
    (∀ a b : HashResultIdx, HashResultIdx.cmp a b = compare b.seq a.seq) ∧
    (∀ s1 s2 : Nat, ∀ h1 h2 : HashResult,
      (HashResultIdx.beq ⟨s1, h1⟩ ⟨s2, h2⟩ = true ↔ s1 = s2)) ∧
    (∀ s1 s2 : Nat, ∀ h1 h2 h1' h2' : HashResult,
      HashResultIdx.cmp ⟨s1, h1⟩ ⟨s2, h2⟩
          = HashResultIdx.cmp ⟨s1, h1'⟩ ⟨s2, h2'⟩ ∧
      (HashResultIdx.cmp ⟨s1, h1⟩ ⟨s2, h2⟩ = Ordering.lt ↔ s2 < s1)) := by
  have hmain : (∀ x ∈ l, m.seq ≤ x.seq) ∧ m ∈ l := by
    rcases l with _ | ⟨y, ys⟩
    · exact Option.noConfusion hpeek
    · have hy : heapPeekMax (y :: ys) = ys.foldl peekStep (some y) := rfl
      rw [hy] at hpeek
      obtain ⟨m', hm', hmem, hle, hall⟩ := heapPeekMax_go ys y
      rw [hm'] at hpeek
      obtain rfl : m' = m := Option.some.inj hpeek
      constructor
      · intro x hx
        rcases List.mem_cons.mp hx with rfl | hxx
        · exact hle
        · exact hall x hxx
      · rcases hmem with rfl | hmm
        · exact List.mem_cons_self _ _
        · exact List.mem_cons_of_mem _ hmm
  refine ⟨hmain.1, hmain.2, fun a b => rfl, ?_, ?_⟩
  · intro s1 s2 h1 h2
    show (s2 == s1) = true ↔ s1 = s2
    rw [beq_iff_eq]
    exact eq_comm
  · intro s1 s2 h1 h2 h1' h2'
    exact ⟨rfl, Nat.compare_eq_lt⟩

/-- Witness for C10 at a concrete heap: peek on the two-element heap with
sequence numbers 3 and 1 selects the digest with sequence number 1. -/
theorem claim10_witness :
    (⟨1, ⟨0, 0⟩⟩ : HashResultIdx) ∈
      [(⟨3, ⟨0, 0⟩⟩ : HashResultIdx), ⟨1, ⟨0, 0⟩⟩] :=
  (claim10_reversed_ord_minheap [⟨3, ⟨0, 0⟩⟩, ⟨1, ⟨0, 0⟩⟩] ⟨1, ⟨0, 0⟩⟩
    (by decide)).2.1

/-- C1: for a fixed input and a fixed block size, the combined digest and
the reported byte length are identical regardless of the order in which
the per-block PartialDigests reach the reducer.  Workers are stateless
(each block is hashed by the pure per-block function workerProcess with a
fresh hasher), so the worker count and the scheduling affect only which
permutation of pipelineDigests arrives; the theorem quantifies over all
such permutations, and equality of HashResult covers hash and length. -/
theorem claim1_arrival_order_determinism (bsz : Nat) (input : List Nat)
    (l1 l2 : List HashResultIdx)
    (h1 : l1.Perm (pipelineDigests bsz input))
    (h2 : l2.Perm (pipelineDigests bsz input)) :
    (reducerRun l1).total = (reducerRun l2).total := by
  have key : ∀ l : List HashResultIdx, l.Perm (pipelineDigests bsz input) →
      (reducerRun l).total = combineAll (pipelineDigests bsz input) := by
    intro l hl
    have hd : seqsOf (pipelineDigests bsz input)
        = List.range (chunks bsz input).length := digestsOf_seqs _
    have hm : (seqsOf l).Perm (seqsOf (pipelineDigests bsz input)) :=
      hl.map _
    rw [hd] at hm
    obtain ⟨_, htr, _, _, htot⟩ := reducerRun_complete l _ hm
    rw [htot]
    exact combineAll_perm (htr.trans hl)
  rw [key l1 h1, key l2 h2]

/-- Witness for C1: on input [7, 9] with block size 1, delivering the two
per-block digests in reverse order yields the same combined result as
delivering them in block order. -/
theorem claim1_witness :
    (reducerRun ((pipelineDigests 1 [7, 9]).reverse)).total
      = (reducerRun (pipelineDigests 1 [7, 9])).total :=
  claim1_arrival_order_determinism 1 [7, 9] _ _
    (List.reverse_perm _) (List.Perm.refl _)

/-- C2: for a block with sequence number s and contents b, the worker
emits a PartialDigest whose hash is the keyed 128-bit SipHash of the
8-byte u64 encoding of s followed by the bytes of b, whose sequence
number is s, and whose byte_count is the length of b: the sequence
prefix goes through hash.write_u64 directly, bypassing the HashWriter
length counter, so the 8 prefix bytes are hashed but not counted. -/
theorem claim2_worker_digest (s : Nat) (b : List Nat)
    (hb : b.length < W64) :
    workerProcess ⟨s, b⟩
      = some ⟨s, ⟨sipHash128 0 0 (u64le s ++ b), b.length⟩⟩ := by
  rw [workerProcess_eq]
  simp [Nat.mod_eq_of_lt hb]

/-- Witness for C2 on the one-byte block [1] with sequence number 0. -/
theorem claim2_witness :
    workerProcess ⟨0, [1]⟩
      = some ⟨0, ⟨sipHash128 0 0 (u64le 0 ++ [1]), 1⟩⟩ :=
  claim2_worker_digest 0 [1] (by decide)

/-- C3: for every arrival order of the PartialDigests of sequence numbers
0..n-1, the reducer (insert into the min-priority queue, then pop while
the minimum equals next_expected) folds each digest exactly once (the
fold trace is a permutation of the arrivals), in strictly increasing
sequence order 0, 1, ..., n-1, drains the queue completely, and the
single emitted result is the fold of that trace; reducerRun returns the
one final state whose total is sent once on the finish channel. -/
theorem claim3_reducer_folds_in_order (arrivals : List HashResultIdx)
    (n : Nat) (h : (seqsOf arrivals).Perm (List.range n)) :
    (reducerRun arrivals).trace.Perm arrivals ∧
    seqsOf (reducerRun arrivals).trace = List.range n ∧
    (reducerRun arrivals).pending = [] ∧
    (reducerRun arrivals).total = combineAll (reducerRun arrivals).trace := by
  obtain ⟨hp, ht, hs, _, htot⟩ := reducerRun_complete arrivals n h
  exact ⟨ht, hs, hp, htot⟩

/-- Witness for C3: two digests arriving in the order 1, 0 are folded in
the order 0, 1. -/
theorem claim3_witness :
    seqsOf (reducerRun [⟨1, ⟨5, 2⟩⟩, ⟨0, ⟨3, 1⟩⟩]).trace = List.range 2 :=
  (claim3_reducer_folds_in_order [⟨1, ⟨5, 2⟩⟩, ⟨0, ⟨3, 1⟩⟩] 2 (by decide)).2.1

/-- C4: for every input and positive block size, the byte count in the
pipeline's combined result - the number printed on the LEN line - equals
the number of input bytes consumed.  The length hypothesis reflects the
u64 type of byte_count in the data model (lengths are accumulated with
u64 wrap-around addition). -/
theorem claim4_reported_length (bsz : Nat) (input : List Nat)
    (hb : 0 < bsz) (hlen : input.length < W64) :
    (pipelineResult bsz input).len = input.length ∧
    "LEN = " ++ Nat.repr (pipelineResult bsz input).len
      = "LEN = " ++ Nat.repr input.length := by
  have hmain : (pipelineResult bsz input).len = input.length := by
    have hd : seqsOf (pipelineDigests bsz input)
        = List.range (chunks bsz input).length := digestsOf_seqs _
    obtain ⟨_, htr, _, _, htot⟩ := reducerRun_complete
      (pipelineDigests bsz input) (chunks bsz input).length
      (by rw [hd])
    rw [pipelineResult, htot, combineAll_perm htr]
    have hpd : pipelineDigests bsz input = digestsOf (chunks bsz input) := rfl
    rw [hpd, combineAll_len, digestsOf_lens]
    have hsum : ((chunks bsz input).map List.length).sum = input.length := by
      rw [← List.length_flatten, chunks_join bsz hb]
    have hcl : ∀ c ∈ chunks bsz input, c.length < W64 := by
      intro c hc
      have h1 : c.length ∈ (chunks bsz input).map List.length :=
        List.mem_map_of_mem List.length hc
      have h2 : c.length ≤ ((chunks bsz input).map List.length).sum :=
        List.le_sum_of_mem h1
      omega
    have hmap : (chunks bsz input).map (fun c => c.length % W64)
        = (chunks bsz input).map List.length :=
      List.map_congr_left (fun c hc => Nat.mod_eq_of_lt (hcl c hc))
    rw [hmap, hsum, Nat.mod_eq_of_lt hlen]
  exact ⟨hmain, by rw [hmain]⟩

/-- Witness for C4: three bytes split into blocks of two report length 3. -/
theorem claim4_witness : (pipelineResult 2 [5, 6, 7]).len = 3 :=
  (claim4_reported_length 2 [5, 6, 7] (by decide) (by decide)).1

/-- C5, counterexample to the fixed-width part: the claim says the first
line always carries exactly 32 hex digits.  Rust's x7b:xx7d LowerHex
format prints no leading zeros, so the run on empty input prints
SIP128/524288 = 0, whose hash field is the single digit 0: the line has
17 characters where the claimed shape forces 16 + 32 = 48. -/
theorem claim5_counterexample :
    (programRun []).line1 = "SIP128/524288 = 0" ∧
    ("SIP128/524288 = 0").length ≠ ("SIP128/524288 = ").length + 32 := by
  constructor
  · rw [programRun_nil]
  · decide

/-- C5 as amended: the first line is SIP128/, the BLOCK_SIZE 524288 in
decimal, an equals sign, and the minimal-length lowercase hexadecimal
representation of the 128-bit hash - between 1 and 32 digits, with no
leading zero (a single 0 for the zero hash), every character a decimal
digit or a lowercase letter from a to f - and the second line is LEN =
followed by the byte count in decimal. -/
theorem claim5_output_format (r : HashResult) (code : Nat)
    (h : r.hash < 2 ^ 128) :
    (formatOutput r code).line1
      = "SIP128/" ++ Nat.repr BUF_SIZE ++ " = " ++ hexStr r.hash ∧
    Nat.repr BUF_SIZE = "524288" ∧
    1 ≤ (hexStr r.hash).length ∧
    (hexStr r.hash).length ≤ 32 ∧
    (r.hash ≠ 0 → (hexStr r.hash).data.head? ≠ some '0') ∧
    (∀ c ∈ (hexStr r.hash).data,
      c.isDigit = true ∨ ('a' ≤ c ∧ c ≤ 'f')) ∧
    (formatOutput r code).line2 = "LEN = " ++ Nat.repr r.len := by
  refine ⟨rfl, by decide, ?_, ?_, ?_, ?_, rfl⟩
  · show 1 ≤ (hexChars r.hash).length
    have hne := hexChars_ne_nil r.hash
    rcases hh : hexChars r.hash with _ | ⟨c, cs⟩
    · exact absurd hh hne
    · simp
  · show (hexChars r.hash).length ≤ 32
    apply hexChars_length_le 32 r.hash (by norm_num)
    have h16 : (16 : Nat) ^ 32 = 2 ^ 128 := by norm_num
    rw [h16]
    exact h
  · intro h0
    exact hexChars_head_ne_zero r.hash h0
  · exact hexChars_mem r.hash

/-- Witness for C5 as amended, at the hash value 1. -/
theorem claim5_witness : (hexStr (HashResult.mk 1 7).hash).length ≤ 32 :=
  (claim5_output_format ⟨1, 7⟩ 0 (by decide)).2.2.2.1

/-- C6: when a read error occurs after a run of nonempty reads, the
producer stops publishing (the blocks are exactly those read before the
error, whatever follows the error is never consumed), the in-flight
blocks are still hashed and folded, the two output lines are printed for
that prefix, and the exit code is 1; a clean end of input at the same
point yields the same two lines with exit code 0.  The error is also
logged to stderr by the producer, which this pure model does not track. -/
theorem claim6_read_error (pre rest : List ReadOutcome)
    (h : ∀ o ∈ pre, ∃ b bs, o = ReadOutcome.ok (b :: bs)) :
    programRun (pre ++ ReadOutcome.err :: rest)
      = outputFor (pre.map ReadOutcome.bytes) 1 ∧
    (programRun (pre ++ ReadOutcome.err :: rest)).exitcode = 1 ∧
    programRun (pre ++ ReadOutcome.ok [] :: rest)
      = outputFor (pre.map ReadOutcome.bytes) 0 ∧
    (programRun (pre ++ ReadOutcome.ok [] :: rest)).exitcode = 0 := by
  have he := producerRun_err pre rest h
  have hf := producerRun_eof pre rest h
  have h1 : programRun (pre ++ ReadOutcome.err :: rest)
      = outputFor (pre.map ReadOutcome.bytes) 1 := by
    have hu : programRun (pre ++ ReadOutcome.err :: rest)
        = outputFor (producerRun (pre ++ ReadOutcome.err :: rest)).1
            (producerRun (pre ++ ReadOutcome.err :: rest)).2 := rfl
    rw [hu, he]
  have h2 : programRun (pre ++ ReadOutcome.ok [] :: rest)
      = outputFor (pre.map ReadOutcome.bytes) 0 := by
    have hu : programRun (pre ++ ReadOutcome.ok [] :: rest)
        = outputFor (producerRun (pre ++ ReadOutcome.ok [] :: rest)).1
            (producerRun (pre ++ ReadOutcome.ok [] :: rest)).2 := rfl
    rw [hu, hf]
  refine ⟨h1, ?_, h2, ?_⟩
  · rw [h1]
    exact rfl
  · rw [h2]
    exact rfl

/-- Witness for C6: one good one-byte read followed by a read error gives
exit code 1. -/
theorem claim6_witness :
    (programRun ([ReadOutcome.ok [5]] ++ ReadOutcome.err :: [])).exitcode
      = 1 :=
  (claim6_read_error [ReadOutcome.ok [5]] []
    (by
      intro o ho
      rw [List.mem_singleton] at ho
      exact ⟨5, [], ho⟩)).2.1

end Quickhash
